import Mathlib

/-!
# Verification of `devork/w3w` (`w3w.go`)

A shallow embedding of the Go what3words client in `w3w.go`.

Modelling conventions:

* Go `float64` coordinate values are represented by their exact rational
  value (`ℚ`); every finite IEEE-754 double is an exact dyadic rational, so
  concrete doubles appearing in claims are embedded as those exact rationals.
* Go standard-library behaviour that `w3w.go` delegates to
  (`net/url.Values.Encode`, `net/url.QueryEscape`, `strings.Join`,
  `strings.TrimSpace`, `fmt.Sprintf "%.15f"`, and the `encoding/json`
  unmarshalling semantics for the `Languages` shape) is modelled from the
  documented semantics of those functions.
* The HTTP transport (`*http.Client`) is an oracle
  `Nat → String → Except τ β`: the outcome of the n-th `Do` call of an
  operation, given the request URL.  `exec` performs exactly one `Do`
  (index 0).  The response body type `β` is abstract; the JSON decoder for
  a result type is a parameter where it is not modelled concretely.
* Each public operation returns the issued request URL (the string passed
  to `http.NewRequest`) paired with the Go outcome; the Go outcome is a
  `CallResult`, which records the runtime panic a nil-interface type
  assertion produces.
-/

set_option maxRecDepth 8000

namespace W3w

/-- Go `strings.Join(elems, sep)`: concatenates the elements placing `sep`
between consecutive elements, with no leading or trailing separator. -/
def goJoin (elems : List String) (sep : String) : String :=
  match elems with
  | [] => ""
  | e :: es => es.foldl (fun acc x => acc ++ sep ++ x) e

/-- UTF-8 encoding of a single code point (Go strings are UTF-8 byte
sequences; `net/url` escaping works byte-wise). -/
def utf8Bytes (c : Char) : List Nat :=
  let n := c.toNat
  if n < 128 then [n]
  else if n < 2048 then [192 + n / 64, 128 + n % 64]
  else if n < 65536 then [224 + n / 4096, 128 + n / 64 % 64, 128 + n % 64]
  else [240 + n / 262144, 128 + n / 4096 % 64, 128 + n / 64 % 64, 128 + n % 64]

/-- The UTF-8 bytes of a string. -/
def strBytes (s : String) : List Nat :=
  (s.data.map utf8Bytes).flatten

/-- Upper-case hexadecimal digit, as used by Go `net/url` percent-escaping. -/
def hexUpper (n : Nat) : Char :=
  "0123456789ABCDEF".data.getD n '0'

/-- Bytes Go `net/url` leaves unescaped in a query component:
alphanumerics and `-`, `.`, `_`, `~`. -/
def isUnreservedQueryByte (b : Nat) : Bool :=
  (48 ≤ b && b ≤ 57) || (65 ≤ b && b ≤ 90) || (97 ≤ b && b ≤ 122) ||
    b == 45 || b == 46 || b == 95 || b == 126

/-- Go `net/url.QueryEscape` applied to one byte: space becomes `+`,
unreserved bytes stay literal, everything else becomes `%XX` (upper-case
hex). -/
def escapeByte (b : Nat) : String :=
  if b == 32 then "+"
  else if isUnreservedQueryByte b then String.singleton (Char.ofNat b)
  else "%" ++ String.singleton (hexUpper (b / 16)) ++ String.singleton (hexUpper (b % 16))

/-- Go `net/url.QueryEscape`: escapes the UTF-8 bytes of `s` so it can be
safely placed inside a URL query. -/
def queryEscape (s : String) : String :=
  String.join ((strBytes s).map escapeByte)

/-- Model of Go `net/url.Values` (a map from keys to values; `w3w.go` only
ever stores a single value per key via `Set`). -/
abbrev Values := List (String × String)

/-- Go `url.Values.Set(k, val)`: replaces any existing entries for key `k`
by the single value `val`. -/
def Values.set (v : Values) (k val : String) : Values :=
  v.filter (fun kv => kv.1 != k) ++ [(k, val)]

/-- The value stored for key `k`, if any. -/
def Values.get (v : Values) (k : String) : Option String :=
  (v.find? (fun kv => kv.1 == k)).map (fun kv => kv.2)

/-- Lexicographic order on character sequences by code point.  Go
`sort.Strings` compares strings byte-wise; on UTF-8 encoded strings the
byte-wise order coincides with the code-point lexicographic order. -/
def charsLe : List Char → List Char → Bool
  | [], _ => true
  | _ :: _, [] => false
  | a :: as, b :: bs =>
    if a.toNat < b.toNat then true
    else if b.toNat < a.toNat then false
    else charsLe as bs

/-- Lexicographic string comparison, as performed by Go `sort.Strings`
on the keys in `url.Values.Encode`. -/
def strLe (a b : String) : Bool :=
  charsLe a.data b.data

/-- Key order used by Go `url.Values.Encode`, which sorts the encoded
parameters by key. -/
def keyLe (a b : String × String) : Prop :=
  strLe a.1 b.1 = true

instance : DecidableRel keyLe :=
  fun a b => inferInstanceAs (Decidable (strLe a.1 b.1 = true))

instance : IsTotal (String × String) keyLe :=
  ⟨fun a b => by
    unfold keyLe strLe
    generalize a.1.data = as
    generalize b.1.data = bs
    clear a b
    induction as generalizing bs with
    | nil => left; rfl
    | cons a as ih =>
      cases bs with
      | nil => right; rfl
      | cons b bs =>
        rcases Nat.lt_trichotomy a.toNat b.toNat with h | h | h
        · left; simp [charsLe, h]
        · rcases ih bs with h' | h'
          · left; simp [charsLe, h, Nat.lt_irrefl, h']
          · right; simp [charsLe, h.symm, Nat.lt_irrefl, h']
        · right; simp [charsLe, h]⟩

instance : IsTrans (String × String) keyLe :=
  ⟨fun a b c hab hbc => by
    unfold keyLe strLe at *
    generalize a.1.data = as at hab ⊢
    generalize b.1.data = bs at hab hbc
    generalize c.1.data = cs at hbc ⊢
    clear a b c
    induction as generalizing bs cs with
    | nil => rfl
    | cons a as ih =>
      cases bs with
      | nil => simp [charsLe] at hab
      | cons b bs =>
        cases cs with
        | nil => simp [charsLe] at hbc
        | cons c cs =>
          simp only [charsLe] at hab hbc ⊢
          rcases Nat.lt_trichotomy a.toNat b.toNat with h1 | h1 | h1
          · rcases Nat.lt_trichotomy b.toNat c.toNat with h2 | h2 | h2
            · simp [Nat.lt_trans h1 h2]
            · simp [← h2, h1]
            · simp [h2, Nat.lt_asymm h2] at hbc
          · rcases Nat.lt_trichotomy a.toNat c.toNat with h2 | h2 | h2
            · simp [h2]
            · simp only [h1, Nat.lt_irrefl, if_false] at hab
              simp only [h1, ← h2, Nat.lt_irrefl, if_false] at hbc
              simp only [h2, Nat.lt_irrefl, if_false]
              exact ih bs hab cs hbc
            · rw [h1] at h2
              simp [h2, Nat.lt_asymm h2] at hbc
          · simp [h1, Nat.lt_asymm h1] at hab⟩

/-- The key-value pairs in the order `url.Values.Encode` emits them:
sorted by key. -/
def Values.sortPairs (v : Values) : Values :=
  List.insertionSort keyLe v

/-- Go `url.Values.Encode()`: `k=v` pairs sorted by key, each key and value
query-escaped, joined by `&`. -/
def Values.encode (v : Values) : String :=
  goJoin ((Values.sortPairs v).map (fun kv => queryEscape kv.1 ++ "=" ++ queryEscape kv.2)) "&"

/-- The fixed service endpoint (`w3w.go` line 13). -/
def endpoint : String := "https://api.what3words.com"

/-- Go errors are plain values; `w3w.go` only ever returns `ErrNoAPIKey`
or errors produced by the transport or the JSON decoder. -/
abbrev GoError := String

/-- `ErrNoAPIKey` (`w3w.go` line 18). -/
def ErrNoAPIKey : GoError := "No API Key specified"

/-- `What3Words` (`w3w.go` line 30): a `[3]string`. -/
abbrev What3Words := String × String × String

/-- The slice `words[:]` of a `What3Words` value. -/
def What3Words.toList (w : What3Words) : List String :=
  [w.1, w.2.1, w.2.2]

/-- `LatLng` (`w3w.go` line 37): a `[2]float64`.  Each component is the
exact rational value of the IEEE-754 double. -/
abbrev LatLng := ℚ × ℚ

/-- `LatLng.Lat` (`w3w.go` lines 40-42). -/
def LatLng.Lat (ll : LatLng) : ℚ := ll.1

/-- `LatLng.Lng` (`w3w.go` lines 45-47). -/
def LatLng.Lng (ll : LatLng) : ℚ := ll.2

/-- `BBox` (`w3w.go` line 54): a `[2]*LatLng`; `none` models a nil
pointer. -/
abbrev BBox := Option LatLng × Option LatLng

/-- `BBox.SW` (`w3w.go` lines 57-59). -/
def BBox.SW (b : BBox) : Option LatLng := b.1

/-- `BBox.NE` (`w3w.go` lines 62-64). -/
def BBox.NE (b : BBox) : Option LatLng := b.2

/-- `Position` (`w3w.go` lines 71-77).  The Go field `Type` is rendered
`Typ` (`Type` is not a valid Lean field name); `Position` and `Corners`
are pointers in Go, modelled as `Option`. -/
structure Position where
  Typ : String
  Words : What3Words
  Position : Option LatLng
  Corners : Option BBox
  Language : String
deriving DecidableEq

/-- Alias for the `Position` response struct, usable inside the namespace
`W3W` where the plain name `Position` would refer to the operation. -/
abbrev PositionResult := Position

/-- The zero value `Position{}` passed by `Words`/`Position` to `exec`. -/
def emptyPosition : Position :=
  ⟨"", ("", "", ""), none, none, ""⟩

/-- `Language` (`w3w.go` lines 84-87). -/
structure Language where
  Code : String
  Name : String
deriving DecidableEq

/-- `Languages` (`w3w.go` lines 94-96).  The Go field is a slice
`[]Language`; a Go slice is either nil or a (possibly empty) sequence, so
it is modelled as `Option (List Language)` with `none` for nil. -/
structure Languages where
  Languages : Option (List Language)
deriving DecidableEq

/-- The initial value `&Languages{[]Language{}}` passed by `LangsW3W` and
`LangsPos` to `exec` (`w3w.go` lines 178 and 189): an empty, non-nil
slice. -/
def langsInit : Languages := ⟨some []⟩

/-- `Options` (`w3w.go` lines 103-106). -/
structure Options where
  Lang : String
  Corners : Bool
deriving DecidableEq

/-- The package-level default options `defs = Options{"en", false}`
(`w3w.go` line 22). -/
def defs : Options := ⟨"en", false⟩

/-- `Options.add` (`w3w.go` lines 108-119): sets `lang` (defaulting the
empty string to `"en"`) and sets `corners=true` only when the flag is
set. -/
def Options.add (o : Options) (v : Values) : Values :=
  let v1 := if o.Lang = "" then Values.set v "lang" "en" else Values.set v "lang" o.Lang
  if o.Corners then Values.set v1 "corners" "true" else v1

/-- The error returned by `exec` (`w3w.go` lines 194-218): either the
error of `client.Do` (a transport failure, of type `τ`) or the error of
`json.Decode` (a decode failure, of type `δ`), each wrapping the
underlying cause. -/
inductive ExecError (τ δ : Type) where
  | transport (e : τ)
  | decode (e : δ)
deriving DecidableEq

/-- `W3W` (`w3w.go` lines 126-130).  The `*http.Client` is modelled as an
oracle giving the outcome of the n-th `Do` call of an operation on a
request URL: a transport error `τ` or a response body `β`. -/
structure W3W (β τ : Type) where
  apikey : String
  client : Nat → String → Except τ β
  defaults : Options

/-- Go `unicode.IsSpace`: the white space code points recognised by
`strings.TrimSpace`. -/
def goIsSpace (c : Char) : Bool :=
  let n := c.toNat
  n == 9 || n == 10 || n == 11 || n == 12 || n == 13 || n == 32 ||
    n == 133 || n == 160 || n == 5760 || (8192 ≤ n && n ≤ 8202) ||
    n == 8232 || n == 8233 || n == 8239 || n == 8287 || n == 12288

/-- Go `strings.TrimSpace`: removes leading and trailing white space. -/
def trimSpace (s : String) : String :=
  String.mk (((s.data.dropWhile goIsSpace).reverse.dropWhile goIsSpace).reverse)

/-- `New` (`w3w.go` lines 136-147).  The transport oracle stands for the
fresh `&http.Client{}` together with the ambient network. -/
def New {β τ : Type} (apikey : String) (defaults : Option Options)
    (client : Nat → String → Except τ β) : Except GoError (W3W β τ) :=
  if apikey = "" ∨ trimSpace apikey = "" then Except.error ErrNoAPIKey
  else
    match defaults with
    | none => Except.ok ⟨apikey, client, defs⟩
    | some d => Except.ok ⟨apikey, client, d⟩

/-- Zero-padded decimal rendering of `n` to 15 digits. -/
def natPad15 (n : Nat) : String :=
  let s := toString n
  String.mk (List.replicate (15 - s.length) '0') ++ s

/-- Round `num / den` to the nearest integer, ties to even (the rounding
used by Go `strconv`/`fmt` when converting between binary floating point
and a fixed number of decimal digits). -/
def roundHalfEven (num den : Nat) : Nat :=
  if 2 * (num % den) < den then num / den
  else if den < 2 * (num % den) then num / den + 1
  else if (num / den) % 2 = 0 then num / den else num / den + 1

/-- Go `fmt.Sprintf("%.15f", x)` on the exact rational value `x` of a
finite double: fixed-point decimal, exactly 15 fractional digits, correctly
rounded, never scientific notation. -/
def fmt15 (x : ℚ) : String :=
  let sgn := if x < 0 then "-" else ""
  let n := roundHalfEven (x.num.natAbs * 10 ^ 15) x.den
  sgn ++ toString (n / 10 ^ 15) ++ "." ++ natPad15 (n % 10 ^ 15)

/-- Go `fmt.Sprintf("%.15f,%.15f", ll[0], ll[1])` (`w3w.go` lines 166
and 187). -/
def sprintfPos (ll : LatLng) : String :=
  fmt15 ll.1 ++ "," ++ fmt15 ll.2

/-- Fuel-driven floor base-2 logarithm (structurally recursive, so it
evaluates inside the kernel, unlike `Nat.log2`). -/
def log2Fuel : Nat → Nat → Nat
  | 0, _ => 0
  | fuel + 1, n => if 2 ≤ n then log2Fuel fuel (n / 2) + 1 else 0

/-- `Nat.log2`, computed with sufficient fuel. -/
def natLog2 (n : Nat) : Nat := log2Fuel n n

/-- Floor of the base-2 logarithm of `|q|` (meaningful for `q ≠ 0`). -/
def ratLog2 (q : ℚ) : Int :=
  let N := q.num.natAbs
  let D := q.den
  let a := natLog2 N
  let b := natLog2 D
  if D * 2 ^ a ≤ N * 2 ^ b then (a : Int) - b else (a : Int) - b - 1

/-- Rounding to the nearest IEEE-754 binary64 value (ties to even), as
performed by Go `strconv.ParseFloat` on an in-range decimal: the double
grid around `q` has step `2^(E-52)`, where `E` is the binade exponent of
`q` clamped below at `-1022` (the subnormal range), and `q` is rounded
half-even onto that grid.  Faithful for `|q| < 2^1024`; beyond that Go
overflows to ±Inf, which no rational value represents. -/
def roundDouble (q : ℚ) : ℚ :=
  if q = 0 then 0
  else
    let E : Int := max (ratLog2 q) (-1022)
    let N := q.num.natAbs
    let D := q.den
    let n : Nat :=
      if 0 ≤ 52 - E then roundHalfEven (N * 2 ^ (52 - E).toNat) D
      else roundHalfEven N (D * 2 ^ (E - 52).toNat)
    let sn : Int := if q < 0 then -(n : Int) else (n : Int)
    if 52 ≤ E then mkRat (sn * 2 ^ (E - 52).toNat) 1
    else mkRat sn (2 ^ (52 - E).toNat)

/-- `q` is the exact value of a finite IEEE-754 double: a fixed point of
`roundDouble` within the finite range `|q| < 2^1024`. -/
def isDouble (q : ℚ) : Prop :=
  roundDouble q = q ∧ q.num.natAbs < 2 ^ 1024 * q.den

instance : DecidablePred isDouble := fun q =>
  inferInstanceAs (Decidable (roundDouble q = q ∧ q.num.natAbs < 2 ^ 1024 * q.den))

/-- The exact rational value of the decimal numeral printed by `fmt15 x`
(sign, integer part, 15 fractional digits) — the number that
`strconv.ParseFloat` receives when the query value is parsed back. -/
def decimal15 (x : ℚ) : ℚ :=
  let n := roundHalfEven (x.num.natAbs * 10 ^ 15) x.den
  if x < 0 then mkRat (-(n : Int)) (10 ^ 15) else mkRat (n : Int) (10 ^ 15)

/-- The query built by `Words` and `LangsW3W` (`w3w.go` lines 151-154 and
174-176): `key=<apikey>` and `string=<words joined by ".">`. -/
def wordsQuery (key : String) (ws : What3Words) : Values :=
  Values.set (Values.set [] "key" key) "string" (goJoin (What3Words.toList ws) ".")

/-- The query built by `Position` and `LangsPos` (`w3w.go` lines 163-166
and 185-187): `key=<apikey>` and `position=<%.15f,%.15f>`. -/
def positionQuery (key : String) (ll : LatLng) : Values :=
  Values.set (Values.set [] "key" key) "position" (sprintfPos ll)

/-- `W3W.exec` (`w3w.go` lines 194-218), with the issued request URL made
explicit.  Resolves the options (per-call `opts` verbatim when non-nil,
otherwise the stored defaults), builds `url?<encoded query>`, performs one
`client.Do` (oracle index 0), and on success decodes the body into `in0`.
The second and third components mirror Go's `(interface{}, error)` return
values, with `none` for a nil interface. -/
def W3W.exec {β τ δ α : Type} (w : W3W β τ) (url : String) (vals : Values)
    (opts : Option Options) (dec : β → α → Except δ α) (in0 : α) :
    String × Option α × Option (ExecError τ δ) :=
  let vals2 :=
    match opts with
    | some o => o.add vals
    | none => w.defaults.add vals
  let requestUrl := url ++ "?" ++ Values.encode vals2
  match w.client 0 requestUrl with
  | Except.error e => (requestUrl, none, some (ExecError.transport e))
  | Except.ok body =>
    match dec body in0 with
    | Except.error e => (requestUrl, none, some (ExecError.decode e))
    | Except.ok v => (requestUrl, some v, none)

/-- The outcome of a public operation.  Go's `return x.(*T), err` performs
an unchecked type assertion: when `exec` failed, `x` is the nil interface
and the assertion panics at runtime instead of returning. -/
inductive CallResult (ε α : Type) where
  | panicked
  | returned (v : α) (err : Option ε)
deriving DecidableEq

/-- The unchecked type assertion `x.(*T)` combined with the accompanying
`err` return value (`w3w.go` lines 158, 169, 180, 191). -/
def typeAssert {ε α : Type} (v : Option α) (e : Option ε) : CallResult ε α :=
  match v with
  | none => CallResult.panicked
  | some p => CallResult.returned p e

/-- `W3W.Words` (`w3w.go` lines 150-159).  The JSON decoder for the
`Position` shape is an abstract parameter `dec` (the claims settled about
this operation hold for every decoder). -/
def W3W.Words {β τ δ : Type} (w : W3W β τ) (ws : What3Words) (opts : Option Options)
    (dec : β → Position → Except δ Position) :
    String × CallResult (ExecError τ δ) Position :=
  let r := w.exec (endpoint ++ "/w3w") (wordsQuery w.apikey ws) opts dec emptyPosition
  (r.1, typeAssert r.2.1 r.2.2)

/-- `W3W.Position` (`w3w.go` lines 162-170). -/
def W3W.Position {β τ δ : Type} (w : W3W β τ) (ll : LatLng) (opts : Option Options)
    (dec : β → PositionResult → Except δ PositionResult) :
    String × CallResult (ExecError τ δ) PositionResult :=
  let r := w.exec (endpoint ++ "/position") (positionQuery w.apikey ll) opts dec emptyPosition
  (r.1, typeAssert r.2.1 r.2.2)

/-- A JSON value.  `LangsW3W`/`LangsPos` decode response bodies with
`encoding/json`; for them the body type `β` is instantiated with `Json`
(bodies are modelled at the level of parsed JSON values). -/
inductive Json where
  | null
  | bool (b : Bool)
  | num (n : Int)
  | str (s : String)
  | arr (elems : List Json)
  | obj (fields : List (String × Json))

/-- Go `encoding/json` field-name folding (`foldName` in `fold.go`): each
rune is replaced by the smallest rune of its Unicode simple-fold orbit,
so two names match exactly when `bytes.EqualFold` holds.  For an ASCII
letter the orbit minimum is its upper-case form, and the only non-ASCII
runes whose orbits contain an ASCII letter are U+017F LATIN SMALL LETTER
LONG S (orbit of `S`/`s`) and U+212A KELVIN SIGN (orbit of `K`/`k`) —
the two cases `encoding/json` special-cases beyond ASCII folding.  Other
runes are kept as themselves; they can never fold-match the ASCII field
tags of `w3w.go` (`languages`, `code`, `name_display`), so every
comparison this file performs agrees with Go. -/
def foldRune (c : Char) : Char :=
  if 97 ≤ c.toNat ∧ c.toNat ≤ 122 then Char.ofNat (c.toNat - 32)
  else if c.toNat = 383 then 'S'
  else if c.toNat = 8490 then 'K'
  else c

/-- Case-folded comparison of a JSON object key against a struct field
tag, as performed by `encoding/json` field matching
(`bytes.EqualFold` semantics, via `foldRune`). -/
def eqFold (a b : String) : Bool :=
  a.data.map foldRune == b.data.map foldRune

/-- `encoding/json` unmarshalling into a `string` field: a JSON string
sets the field, JSON `null` leaves it unchanged, any other value is an
error. -/
def unmarshalString (j : Json) (init : String) : Except String String :=
  match j with
  | Json.null => Except.ok init
  | Json.str s => Except.ok s
  | _ => Except.error "json: cannot unmarshal value into Go value of type string"

/-- `encoding/json` unmarshalling into a `Language` struct: `null` is a
no-op, an object sets the fields tagged `code` and `name_display` (keys
fold-matched, unknown keys ignored), anything else is an
error. -/
def unmarshalLanguage (j : Json) (init : Language) : Except String Language :=
  match j with
  | Json.null => Except.ok init
  | Json.obj fields =>
    fields.foldlM
      (fun acc kv =>
        if eqFold kv.1 "code" then
          (unmarshalString kv.2 acc.Code).map (fun s => { acc with Code := s })
        else if eqFold kv.1 "name_display" then
          (unmarshalString kv.2 acc.Name).map (fun s => { acc with Name := s })
        else Except.ok acc)
      init
  | _ => Except.error "json: cannot unmarshal value into Go value of type w3w.Language"

/-- `encoding/json` unmarshalling into a `[]Language` slice: JSON `null`
sets the slice to nil, a JSON array replaces the slice by the decoded
elements (each element decoded into a zero `Language`), anything else is
an error.  The previous slice contents are discarded either way. -/
def unmarshalLanguageSlice (j : Json) (_init : Option (List Language)) :
    Except String (Option (List Language)) :=
  match j with
  | Json.null => Except.ok none
  | Json.arr xs => (xs.mapM (fun x => unmarshalLanguage x ⟨"", ""⟩)).map some
  | _ => Except.error "json: cannot unmarshal value into Go value of type []w3w.Language"

/-- `encoding/json` unmarshalling into a `Languages` struct (the decode
step of `exec` when called from `LangsW3W`/`LangsPos`): `null` is a no-op
on the preinitialised value, an object processes its fields in order (a
field fold-matching the tag `languages` decodes into the
slice), anything else is an error. -/
def unmarshalLanguages (j : Json) (init : Languages) : Except String Languages :=
  match j with
  | Json.null => Except.ok init
  | Json.obj fields =>
    fields.foldlM
      (fun acc kv =>
        if eqFold kv.1 "languages" then
          (unmarshalLanguageSlice kv.2 acc.Languages).map Languages.mk
        else Except.ok acc)
      init
  | _ => Except.error "json: cannot unmarshal value into Go value of type w3w.Languages"

/-- `W3W.LangsW3W` (`w3w.go` lines 173-181), with the `encoding/json`
decoding of the `Languages` shape modelled concretely. -/
def W3W.LangsW3W {τ : Type} (w : W3W Json τ) (ws : What3Words) (opts : Option Options) :
    String × CallResult (ExecError τ String) Languages :=
  let r := w.exec (endpoint ++ "/get-languages") (wordsQuery w.apikey ws) opts
    unmarshalLanguages langsInit
  (r.1, typeAssert r.2.1 r.2.2)

/-- `W3W.LangsPos` (`w3w.go` lines 184-192). -/
def W3W.LangsPos {τ : Type} (w : W3W Json τ) (ll : LatLng) (opts : Option Options) :
    String × CallResult (ExecError τ String) Languages :=
  let r := w.exec (endpoint ++ "/get-languages") (positionQuery w.apikey ll) opts
    unmarshalLanguages langsInit
  (r.1, typeAssert r.2.1 r.2.2)

/-- The value of the last field of `fields` whose key fold-matches
`languages` — the field whose decoding determines the final slice
(later duplicate keys overwrite earlier ones). -/
def lastMatch (fields : List (String × Json)) : Option Json :=
  match fields with
  | [] => none
  | kv :: rest =>
    match lastMatch rest with
    | some w => some w
    | none => if eqFold kv.1 "languages" then some kv.2 else none

/-- The field of a JSON body that determines the decoded `languages`
slice, if any. -/
def effectiveLanguagesField (j : Json) : Option Json :=
  match j with
  | Json.obj fields => lastMatch fields
  | _ => none

-- Concrete transports and inputs used by the closed theorems below.

/-- A client whose transport always fails with a connection error. -/
def failingClient : W3W Unit String :=
  ⟨"KEY", fun _ _ => Except.error "connection refused", defs⟩

/-- A client whose transport fails on the first attempt and would succeed
on any retry. -/
def retryClient : W3W Unit String :=
  ⟨"KEY", fun n _ => if n = 0 then Except.error "connection refused" else Except.ok (), defs⟩

/-- A client whose transport succeeds (with an uninteresting body). -/
def okClient : W3W Unit String :=
  ⟨"KEY", fun _ _ => Except.ok (), defs⟩

/-- A client whose transport returns the JSON body `5`, which does not
match the `Languages` shape. -/
def numBodyClient : W3W Json String :=
  ⟨"KEY", fun _ _ => Except.ok (Json.num 5), defs⟩

/-- A JSON-bodied client whose transport always fails with a connection
error. -/
def failingJsonClient : W3W Json String :=
  ⟨"KEY", fun _ _ => Except.error "connection refused", defs⟩

/-- A client whose transport returns the JSON body
`{"languages": null}`. -/
def nullLanguagesClient : W3W Json String :=
  ⟨"KEY", fun _ _ => Except.ok (Json.obj [("languages", Json.null)]), defs⟩

/-- A client whose transport returns the JSON body
`{"languageſ": null}` — the key ends in U+017F LONG S, which Go's
field matching folds onto `languages`. -/
def nullFoldLanguagesClient : W3W Json String :=
  ⟨"KEY", fun _ _ => Except.ok (Json.obj [("languageſ", Json.null)]), defs⟩

/-- A client whose transport returns the JSON body
`{"languages": []}`. -/
def emptyLanguagesClient : W3W Json String :=
  ⟨"KEY", fun _ _ => Except.ok (Json.obj [("languages", Json.arr [])]), defs⟩

/-- A trivially succeeding transport, used to instantiate closed
statements about `New`. -/
def unitTransport : Nat → String → Except String Unit :=
  fun _ _ => Except.ok ()

/-- The exact rational value of the IEEE-754 double closest to
`51.484463` (the Go literal in the claim): `7245794011942815 / 2^47`. -/
def latValue : ℚ := mkRat 7245794011942815 140737488355328

/-- The exact rational value of the IEEE-754 double closest to
`-0.195405`: `-3520103540745327 / 2^54`. -/
def lngValue : ℚ := mkRat (-3520103540745327) 18014398509481984

/-! ## Helper lemmas about `Values` -/

theorem find?_filter_ne (v : Values) (k k' : String) (h : k' ≠ k) :
    List.find? (fun kv => kv.1 == k') (List.filter (fun kv => kv.1 != k) v)
      = List.find? (fun kv => kv.1 == k') v := by
  induction v with
  | nil => rfl
  | cons a v ih =>
    by_cases ha : a.1 = k
    · have h2 : (k == k') = false := by
        rw [beq_eq_false_iff_ne]
        exact Ne.symm h
      simp [List.filter_cons, List.find?_cons, ha, h2, ih]
    · have h1 : (a.1 != k) = true := by simp [ha]
      simp [List.filter_cons, h1, List.find?_cons, ih]

theorem get_set_same (v : Values) (k x : String) :
    Values.get (Values.set v k x) k = some x := by
  unfold Values.get Values.set
  rw [List.find?_append]
  have h1 : List.find? (fun kv => kv.1 == k) (List.filter (fun kv => kv.1 != k) v) = none := by
    rw [List.find?_eq_none]
    intro kv hkv
    have h2 : (kv.1 != k) = true := (List.mem_filter.mp hkv).2
    simp only [bne_iff_ne, ne_eq] at h2
    simp only [beq_iff_eq]
    exact h2
  rw [h1]
  simp

theorem get_set_other (v : Values) (k k' x : String) (h : k' ≠ k) :
    Values.get (Values.set v k x) k' = Values.get v k' := by
  unfold Values.get Values.set
  rw [List.find?_append, find?_filter_ne v k k' h]
  have h2 : List.find? (fun kv : String × String => kv.1 == k') [(k, x)] = none := by
    simp [Ne.symm h]
  rw [h2]
  cases List.find? (fun kv : String × String => kv.1 == k') v <;> simp

/-! ## Claim theorems -/

/-- **C3**: option resolution in `exec` (`w3w.go` lines 196-200) performs a
full replacement, never a field-level merge: when a per-call `opts` is
supplied the stored defaults are irrelevant and the call behaves exactly
like a client whose defaults are `opts` called with no per-call options;
when no per-call `opts` is supplied the call behaves exactly as if the
stored defaults had been passed per-call verbatim. -/
theorem opts_full_replacement {β τ δ α : Type} (k : String)
    (c : Nat → String → Except τ β) (d₁ d₂ o : Options) (url : String)
    (vals : Values) (dec : β → α → Except δ α) (i : α) :
    (W3W.mk k c d₁).exec url vals (some o) dec i = (W3W.mk k c d₂).exec url vals (some o) dec i
    ∧ (W3W.mk k c d₁).exec url vals (some o) dec i = (W3W.mk k c o).exec url vals none dec i
    ∧ (W3W.mk k c d₁).exec url vals none dec i = (W3W.mk k c d₁).exec url vals (some d₁) dec i :=
  ⟨rfl, rfl, rfl⟩

/-- **C5**: `New` (`w3w.go` lines 136-147) fails with `ErrNoAPIKey` exactly
when the key is empty or all white space, succeeds (storing the key
verbatim and the given or package defaults) for every other key, and no
constructed client ever holds an empty/whitespace-only key. -/
theorem new_key_validation {β τ : Type} (k : String) (d : Option Options)
    (c : Nat → String → Except τ β) :
    (trimSpace k = "" → New k d c = Except.error ErrNoAPIKey)
    ∧ (trimSpace k ≠ "" → New k d c = Except.ok ⟨k, c, d.getD defs⟩)
    ∧ (∀ w : W3W β τ, New k d c = Except.ok w → trimSpace w.apikey ≠ "") := by
  refine ⟨?_, ?_, ?_⟩
  · intro h
    unfold New
    rw [if_pos (Or.inr h)]
  · intro h
    unfold New
    rw [if_neg]
    · cases d with
      | none => rfl
      | some d' => rfl
    · rintro (rfl | h')
      · exact h rfl
      · exact h h'
  · intro w hw
    by_cases h : trimSpace k = ""
    · unfold New at hw
      rw [if_pos (Or.inr h)] at hw
      cases hw
    · unfold New at hw
      rw [if_neg] at hw
      · cases d with
        | none => cases hw; exact h
        | some d' => cases hw; exact h
      · rintro (rfl | h')
        · exact h rfl
        · exact h h'

/-- Witness for **C5**, instantiating `new_key_validation` at the
whitespace-only key `"  "` and the ordinary key `"KEY"`. -/
theorem new_key_validation_witness :
    (trimSpace "  " = "" ∧ New "  " none unitTransport = Except.error ErrNoAPIKey)
    ∧ (trimSpace "KEY" ≠ "" ∧ New "KEY" none unitTransport = Except.ok ⟨"KEY", unitTransport, defs⟩)
    ∧ trimSpace ((⟨"KEY", unitTransport, defs⟩ : W3W Unit String).apikey) ≠ "" :=
  ⟨⟨by decide, (new_key_validation "  " none unitTransport).1 (by decide)⟩,
   ⟨by decide, (new_key_validation "KEY" none unitTransport).2.1 (by decide)⟩,
   (new_key_validation "KEY" none unitTransport).2.2 ⟨"KEY", unitTransport, defs⟩ rfl⟩

/-- **C6**: `Options.add` (`w3w.go` lines 108-119) contributes `lang`
(the configured code, or the literal `"en"` when it is empty) and
contributes `corners=true` exactly when the corners flag is set; when the
flag is false no `corners` parameter is present in the resulting query
(the operations never pre-populate one, matching the hypothesis). -/
theorem options_add_query (o : Options) (v : Values)
    (h : Values.get v "corners" = none) :
    Values.get (o.add v) "lang" = some (if o.Lang = "" then "en" else o.Lang)
    ∧ Values.get (o.add v) "corners" = (if o.Corners then some "true" else none) := by
  rcases o with ⟨lang, corners⟩
  by_cases hl : lang = ""
  · subst hl
    cases corners
    · constructor
      · rw [show Options.add ⟨"", false⟩ v = Values.set v "lang" "en" from rfl,
            get_set_same]
        rfl
      · rw [show Options.add ⟨"", false⟩ v = Values.set v "lang" "en" from rfl,
            get_set_other v "lang" "corners" "en" (by decide), h]
        rfl
    · constructor
      · rw [show Options.add ⟨"", true⟩ v
              = Values.set (Values.set v "lang" "en") "corners" "true" from rfl,
            get_set_other _ "corners" "lang" "true" (by decide), get_set_same]
        rfl
      · rw [show Options.add ⟨"", true⟩ v
              = Values.set (Values.set v "lang" "en") "corners" "true" from rfl,
            get_set_same]
        rfl
  · have hadd : Options.add ⟨lang, corners⟩ v
        = (if corners then Values.set (Values.set v "lang" lang) "corners" "true"
           else Values.set v "lang" lang) := by
      unfold Options.add
      rw [if_neg hl]
    cases corners
    · rw [if_neg (by exact Bool.false_ne_true)] at hadd
      constructor
      · rw [hadd, get_set_same, if_neg hl]
      · rw [hadd, get_set_other v "lang" "corners" lang (by decide), h]
        rfl
    · rw [if_pos rfl] at hadd
      constructor
      · rw [hadd, get_set_other _ "corners" "lang" "true" (by decide),
            get_set_same, if_neg hl]
      · rw [hadd, get_set_same]
        rfl

/-- Witness for **C6**, instantiating `options_add_query` at the
zero-value options and an empty query. -/
theorem options_add_query_witness :
    Values.get ([] : Values) "corners" = none
    ∧ Values.get (Options.add ⟨"", false⟩ []) "lang" = some "en"
    ∧ Values.get (Options.add ⟨"", false⟩ []) "corners" = none :=
  ⟨by decide, (options_add_query ⟨"", false⟩ [] (by decide)).1,
   (options_add_query ⟨"", false⟩ [] (by decide)).2⟩

/-- **C1** (code bug): on transport failure `exec` itself (`w3w.go` lines
205-209) returns a nil result and the transport error wrapping the
underlying cause, consults neither the decoder (the outcome is identical
for a decoder that would fail) nor any further transport attempt
(`retryClient` would succeed on a second attempt); but each public
operation then evaluates an unchecked type assertion on the nil interface
(`pos.(*Position)`, lines 158/169/180/191) and panics at runtime instead
of returning the error to its caller. -/
theorem transport_error_causes_panic :
    (W3W.exec failingClient (endpoint ++ "/w3w") (wordsQuery "KEY" ("prom", "cape", "pump")) none
        (fun _ p => (Except.ok p : Except String Position)) emptyPosition).2
      = (none, some (ExecError.transport "connection refused"))
    ∧ (W3W.Words failingClient ("prom", "cape", "pump") none
        (fun _ p => (Except.ok p : Except String Position))).2 = CallResult.panicked
    ∧ (W3W.Words failingClient ("prom", "cape", "pump") none
        (fun _ _ => (Except.error "decoder invoked" : Except String Position))).2
      = CallResult.panicked
    ∧ (W3W.Words retryClient ("prom", "cape", "pump") none
        (fun _ p => (Except.ok p : Except String Position))).2 = CallResult.panicked
    ∧ (W3W.Position failingClient (latValue, lngValue) none
        (fun _ p => (Except.ok p : Except String PositionResult))).2 = CallResult.panicked
    ∧ (W3W.LangsW3W failingJsonClient ("prom", "cape", "pump") none).2 = CallResult.panicked
    ∧ (W3W.LangsPos failingJsonClient (latValue, lngValue) none).2 = CallResult.panicked :=
  ⟨rfl, rfl, rfl, rfl, rfl, rfl, rfl⟩

/-- **C2** (code bug): on decode failure `exec` itself (`w3w.go` lines
211-215) returns a nil result and the decode error wrapping the underlying
parse failure, so no partial result escapes `exec`; but each public
operation then evaluates the unchecked nil-interface type assertion and
panics at runtime instead of returning the error to its caller (shown both
for a `Position` lookup with a failing decoder and for `LangsW3W` on the
body `5`, which does not match the `Languages` shape). -/
theorem decode_error_causes_panic :
    (W3W.exec okClient (endpoint ++ "/w3w") (wordsQuery "KEY" ("prom", "cape", "pump")) none
        (fun _ _ => (Except.error "invalid character" : Except String Position)) emptyPosition).2
      = (none, some (ExecError.decode "invalid character"))
    ∧ (W3W.Words okClient ("prom", "cape", "pump") none
        (fun _ _ => (Except.error "invalid character" : Except String Position))).2
      = CallResult.panicked
    ∧ (W3W.exec numBodyClient (endpoint ++ "/get-languages") (wordsQuery "KEY" ("a", "b", "c"))
        none unmarshalLanguages langsInit).2
      = (none, some (ExecError.decode "json: cannot unmarshal value into Go value of type w3w.Languages"))
    ∧ (W3W.LangsW3W numBodyClient ("a", "b", "c") none).2 = CallResult.panicked :=
  ⟨rfl, rfl, rfl, rfl⟩

/-- Counterexample to **C4**: the URL issued by the `Position` lookup of
the claim's scenario is not the claimed
`/position?key=KEY&position=51.484463000000000,-0.195405000000000&lang=de&corners=true`
(the parameters are emitted in sorted key order, the comma is
percent-encoded, and `%.15f` prints the double nearest `51.484463` as
`51.484462999999998`). -/
theorem position_request_not_claimed_url :
    (W3W.Position okClient (latValue, lngValue) (some ⟨"de", true⟩)
        (fun _ p => (Except.ok p : Except String PositionResult))).1
      ≠ endpoint ++ "/position?key=KEY&position=51.484463000000000,-0.195405000000000&lang=de&corners=true" := by
  decide

/-- **C4** (amended): on a client created with key `"KEY"`, the `Position`
lookup at the doubles nearest `51.484463` and `-0.195405` with options
`{lang: "de", corners: true}` issues exactly
`GET https://api.what3words.com/position?corners=true&key=KEY&lang=de&position=51.484462999999998%2C-0.195405000000000`
(keys in sorted order per `url.Values.Encode`, comma percent-encoded,
coordinates per `%.15f` on the actual doubles). -/
theorem position_request_url :
    New "KEY" none okClient.client = Except.ok okClient
    ∧ (W3W.Position okClient (latValue, lngValue) (some ⟨"de", true⟩)
        (fun _ p => (Except.ok p : Except String PositionResult))).1
      = "https://api.what3words.com/position?corners=true&key=KEY&lang=de&position=51.484462999999998%2C-0.195405000000000" :=
  ⟨rfl, by decide⟩

/-- **C7**: the `string` query parameter built by `Words` (`w3w.go` line
154) and `LangsW3W` (line 176) — both build it via `wordsQuery` — is the
three tokens joined by `.`, with no leading or trailing separator. -/
theorem words_string_param (key a b c : String) :
    Values.get (wordsQuery key (a, b, c)) "string" = some (a ++ "." ++ b ++ "." ++ c) := by
  unfold wordsQuery
  rw [get_set_same]
  simp only [goJoin, What3Words.toList, List.foldl]

/-! ## Helper lemmas for the `Languages` decode shape -/

theorem langs_fold_nonnil :
    ∀ (fields : List (String × Json)) (acc : Languages),
      (match lastMatch fields with
       | none => acc.Languages ≠ none
       | some w => w ≠ Json.null) →
      ∀ L, (fields.foldlM
          (fun acc kv =>
            if eqFold kv.1 "languages" then
              (unmarshalLanguageSlice kv.2 acc.Languages).map Languages.mk
            else Except.ok acc)
          acc) = Except.ok L → L.Languages ≠ none := by
  intro fields
  induction fields with
  | nil =>
    intro acc h L hL
    simp only [List.foldlM_nil] at hL
    cases hL
    simpa using h
  | cons kv rest ih =>
    intro acc h L hL
    rw [List.foldlM_cons] at hL
    by_cases hm : eqFold kv.1 "languages" = true
    · rw [if_pos hm] at hL
      cases hs : unmarshalLanguageSlice kv.2 acc.Languages with
      | error e =>
        rw [hs] at hL
        exact Except.noConfusion hL
      | ok l =>
        rw [hs] at hL
        refine ih ⟨l⟩ ?_ L hL
        cases hlm : lastMatch rest with
        | some w =>
          unfold lastMatch at h
          rw [hlm] at h
          exact h
        | none =>
          unfold lastMatch at h
          rw [hlm, if_pos hm] at h
          show l ≠ none
          have hkv : kv.2 ≠ Json.null := h
          cases jv : kv.2 with
          | null => exact absurd jv hkv
          | arr xs =>
            rw [jv] at hs
            simp only [unmarshalLanguageSlice] at hs
            cases hmm : xs.mapM (fun x => unmarshalLanguage x ⟨"", ""⟩) with
            | error e =>
              rw [hmm] at hs
              exact Except.noConfusion hs
            | ok ls =>
              rw [hmm] at hs
              have hl2 : some ls = l := Except.ok.inj hs
              rw [← hl2]
              exact fun hno => Option.noConfusion hno
          | bool b => rw [jv] at hs; exact Except.noConfusion hs
          | num n => rw [jv] at hs; exact Except.noConfusion hs
          | str s => rw [jv] at hs; exact Except.noConfusion hs
          | obj fs => rw [jv] at hs; exact Except.noConfusion hs
    · rw [if_neg hm] at hL
      refine ih acc ?_ L hL
      cases hlm : lastMatch rest with
      | some w =>
        unfold lastMatch at h
        rw [hlm] at h
        exact h
      | none =>
        unfold lastMatch at h
        rw [hlm, if_neg hm] at h
        exact h

theorem langs_decode_nonnil (j : Json) (L : Languages)
    (hnull : effectiveLanguagesField j ≠ some Json.null)
    (hok : unmarshalLanguages j langsInit = Except.ok L) : L.Languages ≠ none := by
  cases j with
  | null =>
    cases hok
    simp [langsInit]
  | obj fields =>
    refine langs_fold_nonnil fields langsInit ?_ L hok
    cases hlm : lastMatch fields with
    | none => exact fun hno => Option.noConfusion hno
    | some w =>
      intro hw
      exact hnull (by rw [show effectiveLanguagesField (Json.obj fields) = lastMatch fields from rfl, hlm, hw])
  | bool b => simp [unmarshalLanguages] at hok
  | num n => simp [unmarshalLanguages] at hok
  | str s => simp [unmarshalLanguages] at hok
  | arr xs => simp [unmarshalLanguages] at hok

/-! ## Helper lemmas about the sort order of `Encode` -/

theorem charsLe_antisymm : ∀ as bs, charsLe as bs = true → charsLe bs as = true → as = bs := by
  intro as
  induction as with
  | nil =>
    intro bs h1 h2
    cases bs with
    | nil => rfl
    | cons b bs => simp [charsLe] at h2
  | cons a as ih =>
    intro bs h1 h2
    cases bs with
    | nil => simp [charsLe] at h1
    | cons b bs =>
      simp only [charsLe] at h1 h2
      rcases Nat.lt_trichotomy a.toNat b.toNat with h | h | h
      · simp [h, Nat.lt_asymm h] at h2
      · have hab : a = b := by
          have h3 := congrArg Char.ofNat h
          rwa [Char.ofNat_toNat, Char.ofNat_toNat] at h3
        subst hab
        simp only [Nat.lt_irrefl, if_false] at h1 h2
        rw [ih bs h1 h2]
      · simp [h, Nat.lt_asymm h] at h1

theorem strLe_antisymm (a b : String) (h1 : strLe a b = true) (h2 : strLe b a = true) :
    a = b := by
  unfold strLe at h1 h2
  exact congrArg String.mk (charsLe_antisymm a.data b.data h1 h2)

theorem sorted_perm_nodupkeys_eq : ∀ (l₁ l₂ : Values), l₁.Perm l₂ →
    List.Sorted keyLe l₁ → List.Sorted keyLe l₂ → (l₁.map Prod.fst).Nodup → l₁ = l₂ := by
  intro l₁
  induction l₁ with
  | nil =>
    intro l₂ hp _ _ _
    exact (hp.symm.eq_nil).symm
  | cons a t₁ ih =>
    intro l₂ hp hs₁ hs₂ hnd
    cases l₂ with
    | nil => exact List.noConfusion hp.eq_nil
    | cons b t₂ =>
      rw [List.sorted_cons] at hs₁ hs₂
      obtain ⟨ha1, hs₁'⟩ := hs₁
      obtain ⟨hb2, hs₂'⟩ := hs₂
      have hab : a = b := by
        have haIn : a ∈ b :: t₂ := hp.subset (List.mem_cons_self a t₁)
        have hbIn : b ∈ a :: t₁ := hp.symm.subset (List.mem_cons_self b t₂)
        rcases List.mem_cons.mp haIn with h | haT2
        · exact h
        · rcases List.mem_cons.mp hbIn with h | hbT1
          · exact h.symm
          · have hkey : a.1 = b.1 := strLe_antisymm _ _ (ha1 b hbT1) (hb2 a haT2)
            exfalso
            have hmem : a.1 ∈ t₁.map Prod.fst := by
              rw [hkey]
              exact List.mem_map_of_mem Prod.fst hbT1
            simp only [List.map_cons, List.nodup_cons] at hnd
            exact hnd.1 hmem
      subst hab
      have hnd' : (t₁.map Prod.fst).Nodup := by
        simp only [List.map_cons, List.nodup_cons] at hnd
        exact hnd.2
      rw [ih t₂ hp.cons_inv hs₁' hs₂' hnd']

/-- **C9** (amended): a successful `LangsW3W`/`LangsPos` call returns a
non-nil (possibly empty) language list, unless the response body
explicitly sets the `languages` field (its last fold-matching key)
to JSON `null`, in which case the returned slice is nil.  When the field
is absent, the preinitialised empty slice is returned. -/
theorem langs_success_nonnil :
    (∀ (j : Json) (L : Languages), effectiveLanguagesField j ≠ some Json.null →
        unmarshalLanguages j langsInit = Except.ok L → L.Languages ≠ none)
    ∧ (∀ (τ : Type) (w : W3W Json τ) (ws : What3Words) (opts : Option Options) (j : Json)
        (L : Languages),
        (∀ u, w.client 0 u = Except.ok j) →
        effectiveLanguagesField j ≠ some Json.null →
        (W3W.LangsW3W w ws opts).2 = CallResult.returned L none →
        L.Languages ≠ none)
    ∧ (∀ (τ : Type) (w : W3W Json τ) (ll : LatLng) (opts : Option Options) (j : Json)
        (L : Languages),
        (∀ u, w.client 0 u = Except.ok j) →
        effectiveLanguagesField j ≠ some Json.null →
        (W3W.LangsPos w ll opts).2 = CallResult.returned L none →
        L.Languages ≠ none) := by
  refine ⟨langs_decode_nonnil, ?_, ?_⟩
  · intro τ w ws opts j L hbody hnull hres
    simp only [W3W.LangsW3W, W3W.exec, hbody] at hres
    cases hdec : unmarshalLanguages j langsInit with
    | error e =>
      simp only [hdec] at hres
      simp [typeAssert] at hres
    | ok v =>
      simp only [hdec] at hres
      simp only [typeAssert, CallResult.returned.injEq] at hres
      exact hres.1 ▸ langs_decode_nonnil j v hnull hdec
  · intro τ w ll opts j L hbody hnull hres
    simp only [W3W.LangsPos, W3W.exec, hbody] at hres
    cases hdec : unmarshalLanguages j langsInit with
    | error e =>
      simp only [hdec] at hres
      simp [typeAssert] at hres
    | ok v =>
      simp only [hdec] at hres
      simp only [typeAssert, CallResult.returned.injEq] at hres
      exact hres.1 ▸ langs_decode_nonnil j v hnull hdec

/-- Counterexample to **C9**: the body `{"languages": null}` decodes
without error, yet the call returns a nil (not merely empty) language
list; likewise for `{"languageſ": null}`, whose key fold-matches the
`languages` field via U+017F LONG S. -/
theorem null_languages_decodes_to_nil :
    (W3W.LangsW3W nullLanguagesClient ("a", "b", "c") none).2
      = CallResult.returned ⟨none⟩ none
    ∧ (W3W.LangsW3W nullFoldLanguagesClient ("a", "b", "c") none).2
      = CallResult.returned ⟨none⟩ none := by
  exact ⟨by decide, by decide⟩

/-- Witness for **C9** (amended), instantiating `langs_success_nonnil` at
a client returning the body `{"languages": []}`. -/
theorem langs_success_nonnil_witness :
    (∀ u, emptyLanguagesClient.client 0 u = Except.ok (Json.obj [("languages", Json.arr [])]))
    ∧ effectiveLanguagesField (Json.obj [("languages", Json.arr [])]) ≠ some Json.null
    ∧ (W3W.LangsW3W emptyLanguagesClient ("a", "b", "c") none).2
        = CallResult.returned ⟨some []⟩ none
    ∧ (Languages.mk (some [])).Languages ≠ none :=
  ⟨fun _ => rfl,
   fun h => Json.noConfusion (Option.some.inj h),
   by decide,
   langs_success_nonnil.2.1 String emptyLanguagesClient ("a", "b", "c") none
     (Json.obj [("languages", Json.arr [])]) ⟨some []⟩ (fun _ => rfl)
     (fun h => Json.noConfusion (Option.some.inj h)) (by decide)⟩

/-- **C10**: `url.Values.Encode` emits the query parameters sorted by key
(`sortPairs` is sorted for every input), so the encoded query is
independent of the order in which parameters with distinct keys were
added. -/
theorem encode_sorted_by_key :
    (∀ v : Values, List.Sorted keyLe (Values.sortPairs v))
    ∧ (∀ v v' : Values, v.Perm v' → (v.map Prod.fst).Nodup →
        Values.encode v = Values.encode v') := by
  constructor
  · intro v
    exact List.sorted_insertionSort keyLe v
  · intro v v' hp hnd
    unfold Values.encode
    have hperm : (Values.sortPairs v).Perm (Values.sortPairs v') :=
      (List.perm_insertionSort keyLe v).trans (hp.trans (List.perm_insertionSort keyLe v').symm)
    have hnd1 : ((Values.sortPairs v).map Prod.fst).Nodup :=
      (((List.perm_insertionSort keyLe v).map Prod.fst).nodup_iff).mpr hnd
    rw [sorted_perm_nodupkeys_eq (Values.sortPairs v) (Values.sortPairs v') hperm
      (List.sorted_insertionSort keyLe v) (List.sorted_insertionSort keyLe v') hnd1]

/-- Witness for **C10**, instantiating `encode_sorted_by_key` at two
permutations of the same two-parameter query. -/
theorem encode_sorted_by_key_witness :
    ([("b", "2"), ("a", "1")] : Values).Perm [("a", "1"), ("b", "2")]
    ∧ (([("b", "2"), ("a", "1")] : Values).map Prod.fst).Nodup
    ∧ Values.encode [("b", "2"), ("a", "1")] = Values.encode [("a", "1"), ("b", "2")] :=
  ⟨by decide, by decide, encode_sorted_by_key.2 _ _ (by decide) (by decide)⟩


/-! ## Decimal formatting and double round-trip: supporting lemmas for C8 -/

theorem log2Fuel_correct : ∀ (fuel n : Nat), 1 ≤ n → n < 2 ^ fuel →
    2 ^ log2Fuel fuel n ≤ n ∧ n < 2 ^ (log2Fuel fuel n + 1) := by
  intro fuel
  induction fuel with
  | zero =>
    intro n h1 h2
    simp only [pow_zero] at h2
    omega
  | succ fuel ih =>
    intro n h1 h2
    by_cases hn : 2 ≤ n
    · have h1' : 1 ≤ n / 2 := by omega
      have h2' : n / 2 < 2 ^ fuel := by
        have := pow_succ 2 fuel
        omega
      obtain ⟨ha, hb⟩ := ih (n / 2) h1' h2'
      have heq : log2Fuel (fuel + 1) n = log2Fuel fuel (n / 2) + 1 := by
        simp [log2Fuel, hn]
      rw [heq]
      constructor
      · have := pow_succ 2 (log2Fuel fuel (n / 2))
        omega
      · have h3 := pow_succ 2 (log2Fuel fuel (n / 2) + 1)
        have h4 := pow_succ 2 (log2Fuel fuel (n / 2))
        omega
    · have heq : log2Fuel (fuel + 1) n = 0 := by simp [log2Fuel, hn]
      rw [heq]
      simp only [pow_zero, pow_one]
      omega

theorem natLog2_correct (n : Nat) (h : 1 ≤ n) :
    2 ^ natLog2 n ≤ n ∧ n < 2 ^ (natLog2 n + 1) :=
  log2Fuel_correct n n h (Nat.lt_two_pow n)

theorem roundHalfEven_one (a : Nat) : roundHalfEven a 1 = a := by
  unfold roundHalfEven
  norm_num [Nat.mod_one, Nat.div_one]

theorem roundHalfEven_err (a b : Nat) (hb : 0 < b) :
    2 * ((roundHalfEven a b : Int) * b - a).natAbs ≤ b := by
  have hmod := Nat.div_add_mod a b
  have hlt : a % b < b := Nat.mod_lt a hb
  unfold roundHalfEven
  generalize hq : a / b = q at hmod ⊢
  generalize hr : a % b = r at hmod hlt ⊢
  have hcast : (a : Int) = (b : Int) * q + r := by exact_mod_cast hmod.symm
  split_ifs with h1 h2 h3
  · rw [show ((q : Int) * b - a) = -(r : Int) by rw [hcast]; ring]
    omega
  · rw [show (((q + 1 : Nat) : Int) * b - a) = ((b : Int) - (r : Int)) by
      push_cast; rw [hcast]; ring]
    omega
  · rw [show ((q : Int) * b - a) = -(r : Int) by rw [hcast]; ring]
    omega
  · rw [show (((q + 1 : Nat) : Int) * b - a) = ((b : Int) - (r : Int)) by
      push_cast; rw [hcast]; ring]
    omega

theorem roundHalfEven_eq_of_near (a b M : Nat) (hb : 0 < b)
    (h : 2 * ((a : Int) - (M : Int) * b).natAbs < b) : roundHalfEven a b = M := by
  have hmod := Nat.div_add_mod a b
  have hlt : a % b < b := Nat.mod_lt a hb
  unfold roundHalfEven
  generalize hq : a / b = q at hmod ⊢
  generalize hr : a % b = r at hmod hlt ⊢
  have hcast : (a : Int) = (b : Int) * q + r := by exact_mod_cast hmod.symm
  rw [show ((a : Int) - (M : Int) * b)
      = ((q : Int) - M) * b + (r : Int) by rw [hcast]; ring] at h
  rcases Int.lt_trichotomy ((M : ℤ)) ((q : Nat) : ℤ) with hMq | hMq | hMq
  · exfalso
    have hk : (1 : ℤ) ≤ ((q : Nat) : ℤ) - M := by omega
    have hkey : (b : ℤ) ≤ (((q : Nat) : ℤ) - M) * b := by
      calc (b : ℤ) = 1 * b := (one_mul _).symm
      _ ≤ _ := mul_le_mul_of_nonneg_right hk (by positivity)
    generalize hY : (((q : Nat) : ℤ) - M) * b = Y at h hkey
    omega
  · rw [show ((((q : Nat) : ℤ) - M) * b) = 0 by rw [← hMq]; ring] at h
    split_ifs with h1 h2 h3 <;> omega
  · rcases Int.lt_or_le ((M : ℤ)) (((q : Nat) : ℤ) + 2) with hM1 | hM1
    · have hMeq : (M : ℤ) = ((q : Nat) : ℤ) + 1 := by omega
      rw [show ((((q : Nat) : ℤ) - M) * b) = -(b : ℤ) by rw [hMeq]; ring] at h
      split_ifs with h1 h2 h3 <;> omega
    · exfalso
      have hk : (2 : ℤ) ≤ (M : ℤ) - ((q : Nat) : ℤ) := by omega
      have hkey : 2 * (b : ℤ) ≤ ((M : ℤ) - ((q : Nat) : ℤ)) * b :=
        mul_le_mul_of_nonneg_right hk (by positivity)
      rw [show ((((q : Nat) : ℤ) - M) * b)
          = -(((M : ℤ) - ((q : Nat) : ℤ)) * b) by ring] at h
      generalize hY : (((M : ℤ)) - ((q : Nat) : ℤ)) * b = Y at h hkey
      omega

theorem rat_mul_den (q : ℚ) (hq : 0 ≤ q) : q * (q.den : ℚ) = (q.num.natAbs : ℚ) := by
  have hD0 : (0 : ℚ) < (q.den : ℚ) := by exact_mod_cast q.den_pos
  have h2 : q = (q.num : ℚ) / (q.den : ℚ) := (Rat.num_div_den q).symm
  have h1 : q * (q.den : ℚ) = (q.num : ℚ) := (eq_div_iff (ne_of_gt hD0)).mp h2
  rw [h1, Nat.cast_natAbs, abs_of_nonneg (Rat.num_nonneg.mpr hq)]

theorem pow_le_rat_iff (q : ℚ) (hq : 0 < q) (e : ℕ) :
    (2 : ℚ) ^ e ≤ q ↔ 2 ^ e * q.den ≤ q.num.natAbs := by
  have hD0 : (0 : ℚ) < (q.den : ℚ) := by exact_mod_cast q.den_pos
  rw [← mul_le_mul_right hD0, rat_mul_den q hq.le,
    show ((2 : ℚ) ^ e * (q.den : ℚ)) = ((2 ^ e * q.den : ℕ) : ℚ) by push_cast; ring]
  exact Nat.cast_le

theorem rat_lt_pow_iff (q : ℚ) (hq : 0 < q) (e : ℕ) :
    q < (2 : ℚ) ^ e ↔ q.num.natAbs < 2 ^ e * q.den := by
  have hD0 : (0 : ℚ) < (q.den : ℚ) := by exact_mod_cast q.den_pos
  rw [← mul_lt_mul_right hD0, rat_mul_den q hq.le,
    show ((2 : ℚ) ^ e * (q.den : ℚ)) = ((2 ^ e * q.den : ℕ) : ℚ) by push_cast; ring]
  exact Nat.cast_lt

theorem ratLog2_nonneg_correct (q : ℚ) (h1 : 1 ≤ q) :
    ∃ e : ℕ, ratLog2 q = (e : ℤ) ∧ (2 : ℚ) ^ e ≤ q ∧ q < (2 : ℚ) ^ (e + 1) := by
  have hq0 : (0 : ℚ) < q := lt_of_lt_of_le one_pos h1
  have hN0 : 1 ≤ q.num.natAbs := by
    have := Rat.num_pos.mpr hq0
    omega
  have hND : q.den ≤ q.num.natAbs := by
    have := (pow_le_rat_iff q hq0 0).mp (by simpa using h1)
    simpa using this
  obtain ⟨haN, haN2⟩ := natLog2_correct q.num.natAbs hN0
  obtain ⟨hbD, hbD2⟩ := natLog2_correct q.den (Nat.one_le_iff_ne_zero.mpr q.den_nz)
  simp only [ratLog2]
  set N := q.num.natAbs with hNdef
  set D := q.den with hDdef
  set a := natLog2 N with hadef
  set b := natLog2 D with hbdef
  have hab : b ≤ a := by
    by_contra hcon
    push_neg at hcon
    have h2 : 2 ^ (a + 1) ≤ 2 ^ b := Nat.pow_le_pow_right (by norm_num) (by omega)
    omega
  by_cases hc : D * 2 ^ a ≤ N * 2 ^ b
  · rw [if_pos hc]
    refine ⟨a - b, by omega, ?_, ?_⟩
    · rw [pow_le_rat_iff q hq0, ← hNdef, ← hDdef]
      have h2b : 0 < 2 ^ b := Nat.pos_pow_of_pos b (by norm_num)
      have hc2 : (2 ^ (a - b) * D) * 2 ^ b ≤ N * 2 ^ b := by
        calc (2 ^ (a - b) * D) * 2 ^ b = D * (2 ^ (a - b) * 2 ^ b) := by ring
        _ = D * 2 ^ a := by rw [← pow_add]; congr 2; omega
        _ ≤ N * 2 ^ b := hc
      exact Nat.le_of_mul_le_mul_right hc2 h2b
    · rw [rat_lt_pow_iff q hq0, ← hNdef, ← hDdef]
      have hstep : 2 ^ (a + 1) ≤ 2 ^ (a - b + 1) * D := by
        calc 2 ^ (a + 1) = 2 ^ (a - b + 1) * 2 ^ b := by rw [← pow_add]; congr 1; omega
        _ ≤ 2 ^ (a - b + 1) * D := Nat.mul_le_mul_left _ hbD
      omega
  · rw [if_neg hc]
    push_neg at hc
    have hab2 : b < a := by
      rcases Nat.eq_or_lt_of_le hab with heq | hlt2
      · exfalso
        rw [← heq] at hc
        have := Nat.lt_of_mul_lt_mul_right hc
        omega
      · exact hlt2
    refine ⟨a - b - 1, by omega, ?_, ?_⟩
    · rw [pow_le_rat_iff q hq0, ← hNdef, ← hDdef]
      have h1' : 2 ^ (a - b - 1) * D < 2 ^ a := by
        calc 2 ^ (a - b - 1) * D < 2 ^ (a - b - 1) * 2 ^ (b + 1) :=
          mul_lt_mul_of_pos_left hbD2 (Nat.pos_pow_of_pos _ (by norm_num))
        _ = 2 ^ a := by rw [← pow_add]; congr 1; omega
      omega
    · rw [rat_lt_pow_iff q hq0, ← hNdef, ← hDdef]
      have hc2 : N * 2 ^ b < (2 ^ (a - b) * D) * 2 ^ b := by
        calc N * 2 ^ b < D * 2 ^ a := hc
        _ = (2 ^ (a - b) * D) * 2 ^ b := by
          rw [show (2 ^ (a - b) * D) * 2 ^ b = D * (2 ^ (a - b) * 2 ^ b) from by ring,
            ← pow_add]
          congr 2
          omega
      have hlast := Nat.lt_of_mul_lt_mul_right hc2
      have hexp : a - b - 1 + 1 = a - b := by omega
      rw [hexp]
      omega

theorem ratLog2_eq (q : ℚ) (e : ℕ) (h1 : (2 : ℚ) ^ e ≤ q) (h2 : q < (2 : ℚ) ^ (e + 1)) :
    ratLog2 q = (e : ℤ) := by
  have hq1 : (1 : ℚ) ≤ q := le_trans (one_le_pow₀ one_le_two) h1
  obtain ⟨f, hf, hl, hh⟩ := ratLog2_nonneg_correct q hq1
  have hfe : f = e := by
    have k1 : f < e + 1 := by
      by_contra hk
      push_neg at hk
      have : (2 : ℚ) ^ (e + 1) ≤ 2 ^ f := pow_le_pow_right₀ one_le_two hk
      linarith
    have k2 : e < f + 1 := by
      by_contra hk
      push_neg at hk
      have : (2 : ℚ) ^ (f + 1) ≤ 2 ^ e := pow_le_pow_right₀ one_le_two hk
      linarith
    omega
  rw [hf, hfe]

theorem mkRat_eq_q (n : ℤ) (d : ℕ) : mkRat n d = (n : ℚ) / (d : ℚ) := by
  rw [Rat.mkRat_eq_divInt, Rat.divInt_eq_div]
  push_cast
  rfl

theorem half_near_int (a b M : ℕ) (hb : 0 < b) (h : |(a : ℚ) / b - M| < 1 / 2) :
    2 * ((a : Int) - (M : Int) * b).natAbs < b := by
  have hbQ : (0 : ℚ) < (b : ℚ) := by exact_mod_cast hb
  rw [abs_lt] at h
  obtain ⟨h1, h2⟩ := h
  have e1 : (a : ℚ) - M * b = ((a : ℚ) / b - M) * b := by
    field_simp
    ring
  have m1 := mul_lt_mul_of_pos_right h1 hbQ
  have m2 := mul_lt_mul_of_pos_right h2 hbQ
  have k1 : -(b : ℚ) < 2 * ((a : ℚ) - M * b) := by rw [e1]; linarith
  have k2 : 2 * ((a : ℚ) - M * b) < b := by rw [e1]; linarith
  have kz1 : -(b : ℤ) < 2 * ((a : ℤ) - (M : ℤ) * b) := by exact_mod_cast k1
  have kz2 : 2 * ((a : ℤ) - (M : ℤ) * b) < b := by exact_mod_cast k2
  omega

theorem roundDouble_eq_of_near (q x : ℚ) (e M : ℕ) (hq : 0 < q)
    (hlow : (2 : ℚ) ^ e ≤ q) (hhigh : q < (2 : ℚ) ^ (e + 1))
    (hx : x * 2 ^ 52 = (M : ℚ) * 2 ^ e)
    (hnear : |q - x| * 2 ^ 53 < (2 : ℚ) ^ e) : roundDouble q = x := by
  have hne : q ≠ 0 := ne_of_gt hq
  have hnotneg : ¬ q < 0 := not_lt.mpr hq.le
  have hE : ratLog2 q = (e : ℤ) := ratLog2_eq q e hlow hhigh
  have hmax : max ((e : ℕ) : ℤ) (-1022) = ((e : ℕ) : ℤ) := by omega
  have hDpos : (0 : ℚ) < (q.den : ℚ) := by exact_mod_cast q.den_pos
  simp only [roundDouble, hE, hmax, if_neg hne, if_neg hnotneg]
  by_cases he52 : e ≤ 52
  · -- small-exponent case: the double grid has spacing 2^(e-52)
    rw [if_pos (show (0 : ℤ) ≤ 52 - (e : ℕ) by omega)]
    rw [show ((52 : ℤ) - (e : ℕ)).toNat = 52 - e by omega]
    have hxk : x * 2 ^ (52 - e) = (M : ℚ) := by
      have hsplit : (2 : ℚ) ^ 52 = 2 ^ (52 - e) * 2 ^ e := by rw [← pow_add]; congr 1; omega
      rw [hsplit, ← mul_assoc] at hx
      exact mul_right_cancel₀ (by positivity) hx
    have hfrac : ((q.num.natAbs * 2 ^ (52 - e) : ℕ) : ℚ) / (q.den : ℚ) = q * 2 ^ (52 - e) := by
      rw [div_eq_iff (ne_of_gt hDpos)]
      push_cast
      rw [show q * 2 ^ (52 - e) * (q.den : ℚ) = q * (q.den : ℚ) * 2 ^ (52 - e) from by ring,
        rat_mul_den q hq.le]
    have habs : |((q.num.natAbs * 2 ^ (52 - e) : ℕ) : ℚ) / (q.den : ℚ) - (M : ℚ)| < 1 / 2 := by
      rw [hfrac, ← hxk,
        show q * 2 ^ (52 - e) - x * 2 ^ (52 - e) = (q - x) * 2 ^ (52 - e) from by ring,
        abs_mul, abs_of_nonneg (show (0 : ℚ) ≤ 2 ^ (52 - e) by positivity)]
      have hh := mul_lt_mul_of_pos_right hnear
        (show (0 : ℚ) < 2 ^ (52 - e) by positivity)
      have hek : (2 : ℚ) ^ e * 2 ^ (52 - e) = 2 ^ 52 := by rw [← pow_add]; congr 1; omega
      rw [hek] at hh
      have hexp53 : (2 : ℚ) ^ 53 = 2 ^ 52 * 2 := by
        rw [show (53 : ℕ) = 52 + 1 from rfl, pow_succ]
      rw [hexp53] at hh
      have hh2 : (|q - x| * 2 ^ (52 - e) * 2) * 2 ^ 52 < 1 * 2 ^ 52 := by
        calc (|q - x| * 2 ^ (52 - e) * 2) * 2 ^ 52
            = |q - x| * (2 ^ 52 * 2) * 2 ^ (52 - e) := by ring
        _ < 2 ^ 52 := hh
        _ = 1 * 2 ^ 52 := by ring
      have hfin := lt_of_mul_lt_mul_right hh2 (show (0 : ℚ) ≤ 2 ^ 52 by positivity)
      linarith
    have hn : roundHalfEven (q.num.natAbs * 2 ^ (52 - e)) q.den = M :=
      roundHalfEven_eq_of_near _ _ _ q.den_pos
        (half_near_int _ _ _ q.den_pos habs)
    rw [hn]
    have hout : mkRat (M : ℤ) (2 ^ (52 - e)) = x := by
      rw [mkRat_eq_q]
      push_cast
      rw [div_eq_iff (show ((2 : ℚ) ^ (52 - e)) ≠ 0 by positivity)]
      exact hxk.symm
    rcases Nat.lt_or_ge e 52 with hlt | hge
    · rw [if_neg (show ¬ (52 : ℤ) ≤ (e : ℕ) by omega)]
      exact hout
    · have he52' : e = 52 := by omega
      subst he52'
      rw [if_pos (show (52 : ℤ) ≤ ((52 : ℕ) : ℤ) by omega)]
      rw [show (((52 : ℕ) : ℤ) - 52).toNat = 0 by omega]
      rw [show ((M : ℤ) * 2 ^ 0) = (M : ℤ) from by ring]
      rw [Rat.mkRat_one]
      rw [show ((52 : ℕ) - 52) = 0 from rfl] at hout
      rw [show ((2 : ℕ) ^ 0) = 1 from rfl] at hout
      rw [Rat.mkRat_one] at hout
      exact hout
  · -- large-exponent case: grid spacing 2^(e-52) ≥ 2, value is an integer multiple
    push_neg at he52
    rw [if_neg (show ¬ (0 : ℤ) ≤ 52 - (e : ℕ) by omega)]
    rw [show (((e : ℕ) : ℤ) - 52).toNat = e - 52 by omega]
    have hxm : x = (M : ℚ) * 2 ^ (e - 52) := by
      have hsplit : (2 : ℚ) ^ e = 2 ^ (e - 52) * 2 ^ 52 := by rw [← pow_add]; congr 1; omega
      rw [hsplit, show (M : ℚ) * (2 ^ (e - 52) * 2 ^ 52) =
        ((M : ℚ) * 2 ^ (e - 52)) * 2 ^ 52 from by ring] at hx
      exact mul_right_cancel₀ (show ((2 : ℚ) ^ 52) ≠ 0 by positivity) hx
    have hfrac : ((q.num.natAbs : ℕ) : ℚ) / ((q.den * 2 ^ (e - 52) : ℕ) : ℚ) =
        q / 2 ^ (e - 52) := by
      rw [div_eq_div_iff (by positivity)
        (show ((2 : ℚ) ^ (e - 52)) ≠ 0 by positivity)]
      push_cast
      rw [show q * ((q.den : ℚ) * 2 ^ (e - 52)) = q * (q.den : ℚ) * 2 ^ (e - 52) from by ring,
        rat_mul_den q hq.le]
    have habs : |((q.num.natAbs : ℕ) : ℚ) / ((q.den * 2 ^ (e - 52) : ℕ) : ℚ) - (M : ℚ)| <
        1 / 2 := by
      rw [hfrac]
      have hqm : q / 2 ^ (e - 52) - (M : ℚ) = (q - x) / 2 ^ (e - 52) := by
        rw [hxm]
        field_simp
        ring
      rw [hqm, abs_div, abs_of_nonneg (show (0 : ℚ) ≤ 2 ^ (e - 52) by positivity)]
      rw [div_lt_div_iff (show (0 : ℚ) < 2 ^ (e - 52) by positivity) (by norm_num)]
      -- |q - x| * 2 < 1 * 2 ^ (e - 52)
      have hsplit : (2 : ℚ) ^ e = 2 ^ (e - 53) * 2 ^ 53 := by rw [← pow_add]; congr 1; omega
      rw [hsplit] at hnear
      have hcan : |q - x| < 2 ^ (e - 53) :=
        lt_of_mul_lt_mul_right hnear (show (0 : ℚ) ≤ 2 ^ 53 by positivity)
      have h2exp : (2 : ℚ) ^ (e - 53) * 2 = 2 ^ (e - 52) := by
        rw [← pow_succ]
        congr 1
        omega
      have hstep := mul_lt_mul_of_pos_right hcan (show (0 : ℚ) < 2 by norm_num)
      rw [h2exp] at hstep
      linarith
    have hn : roundHalfEven q.num.natAbs (q.den * 2 ^ (e - 52)) = M :=
      roundHalfEven_eq_of_near _ _ _ (by positivity)
        (half_near_int _ _ _ (by positivity) habs)
    rw [hn]
    rw [if_pos (show (52 : ℤ) ≤ ((e : ℕ) : ℤ) by omega)]
    rw [Rat.mkRat_one]
    push_cast
    exact hxm.symm

theorem ratLog2_neg (x : ℚ) : ratLog2 (-x) = ratLog2 x := by
  simp only [ratLog2, Rat.neg_num, Rat.neg_den, Int.natAbs_neg]

theorem negOut (E : ℤ) (n : ℕ) :
    (if 52 ≤ E then mkRat (-(n : ℤ) * 2 ^ (E - 52).toNat) 1
      else mkRat (-(n : ℤ)) (2 ^ (52 - E).toNat)) =
    -(if 52 ≤ E then mkRat ((n : ℤ) * 2 ^ (E - 52).toNat) 1
      else mkRat (n : ℤ) (2 ^ (52 - E).toNat)) := by
  split_ifs with h
  · rw [Rat.neg_mkRat, neg_mul]
  · rw [Rat.neg_mkRat]

theorem roundDouble_neg (x : ℚ) : roundDouble (-x) = -(roundDouble x) := by
  by_cases hx0 : x = 0
  · subst hx0
    norm_num [roundDouble]
  · have hne : -x ≠ 0 := neg_ne_zero.mpr hx0
    simp only [roundDouble, if_neg hx0, if_neg hne, ratLog2_neg, Rat.neg_num, Rat.neg_den,
      Int.natAbs_neg, neg_lt_zero]
    rcases lt_trichotomy x 0 with hneg | h0 | hpos
    · rw [if_neg (not_lt.mpr hneg.le), if_pos hneg, negOut, neg_neg]
    · exact absurd h0 hx0
    · rw [if_pos hpos, if_neg (not_lt.mpr hpos.le), negOut]

theorem decimal15_neg (x : ℚ) : decimal15 (-x) = -(decimal15 x) := by
  by_cases hx0 : x = 0
  · subst hx0
    decide
  · simp only [decimal15, Rat.neg_num, Rat.neg_den, Int.natAbs_neg, neg_lt_zero]
    rcases lt_trichotomy x 0 with hneg | h0 | hpos
    · rw [if_neg (not_lt.mpr hneg.le), if_pos hneg, Rat.neg_mkRat, neg_neg]
    · exact absurd h0 hx0
    · rw [if_pos hpos, if_neg (not_lt.mpr hpos.le), Rat.neg_mkRat]

theorem decimal15_nonneg_err (x : ℚ) (hx : 0 ≤ x) :
    |decimal15 x - x| * (2 * 10 ^ 15) ≤ 1 := by
  have hD0 : (0 : ℚ) < (x.den : ℚ) := by exact_mod_cast x.den_pos
  have hlt : ¬ x < 0 := not_lt.mpr hx
  simp only [decimal15, if_neg hlt]
  rw [mkRat_eq_q]
  set n := roundHalfEven (x.num.natAbs * 10 ^ 15) x.den with hn
  have herr := roundHalfEven_err (x.num.natAbs * 10 ^ 15) x.den x.den_pos
  set t : ℤ := (n : ℤ) * x.den - (x.num.natAbs * 10 ^ 15 : ℕ) with ht
  have herrQ : 2 * |((t : ℤ) : ℚ)| ≤ (x.den : ℚ) := by
    have hq : ((2 * t.natAbs : ℕ) : ℚ) ≤ ((x.den : ℕ) : ℚ) := by exact_mod_cast herr
    push_cast [Nat.cast_natAbs] at hq
    exact hq
  have hx_eq : x * (x.den : ℚ) = (x.num.natAbs : ℚ) := rat_mul_den x hx
  have hx_eq2 : x * (x.den : ℚ) = |((x.num : ℤ) : ℚ)| := by
    rw [← Int.cast_abs, ← Nat.cast_natAbs]
    exact hx_eq
  have hkey : ((n : ℤ) : ℚ) / ((10 ^ 15 : ℕ) : ℚ) - x =
      ((t : ℤ) : ℚ) / ((x.den : ℚ) * 10 ^ 15) := by
    rw [ht]
    push_cast
    rw [div_sub' _ _ _ (by positivity), div_eq_div_iff (by positivity) (by positivity)]
    linear_combination (-((10 : ℚ) ^ 30)) * hx_eq2
  rw [hkey, abs_div, abs_of_nonneg (show (0 : ℚ) ≤ (x.den : ℚ) * 10 ^ 15 by positivity)]
  rw [div_mul_eq_mul_div, div_le_one (by positivity)]
  have hmul := mul_le_mul_of_nonneg_right herrQ (show (0 : ℚ) ≤ 10 ^ 15 by positivity)
  calc |((t : ℤ) : ℚ)| * (2 * 10 ^ 15) = 2 * |((t : ℤ) : ℚ)| * 10 ^ 15 := by ring
  _ ≤ (x.den : ℚ) * 10 ^ 15 := hmul

theorem decimal15_err (x : ℚ) : |decimal15 x - x| * (2 * 10 ^ 15) ≤ 1 := by
  rcases le_or_lt 0 x with h | h
  · exact decimal15_nonneg_err x h
  · have h2 := decimal15_nonneg_err (-x) (by linarith)
    rw [decimal15_neg, show -(decimal15 x) - -x = -(decimal15 x - x) from by ring,
      abs_neg] at h2
    exact h2

theorem decimal15_den_one (x : ℚ) (h0 : 0 ≤ x) (h1 : x.den = 1) : decimal15 x = x := by
  have hlt : ¬ x < 0 := not_lt.mpr h0
  simp only [decimal15, if_neg hlt, h1]
  rw [roundHalfEven_one, mkRat_eq_q]
  have hval := rat_mul_den x h0
  rw [h1, Nat.cast_one, mul_one] at hval
  push_cast
  rw [mul_div_assoc]
  norm_num
  rw [← Int.cast_abs, ← Nat.cast_natAbs]
  exact hval.symm

theorem isDouble_structure (x : ℚ) (hx : roundDouble x = x) (h8 : 8 ≤ x) :
    ∃ e M : ℕ, 3 ≤ e ∧ 2 ^ 52 ≤ M ∧ M < 2 ^ 53 ∧ (2 : ℚ) ^ e ≤ x ∧ x < (2 : ℚ) ^ (e + 1) ∧
      x * 2 ^ 52 = (M : ℚ) * 2 ^ e := by
  have hx0 : (0 : ℚ) < x := by linarith
  have hx1 : (1 : ℚ) ≤ x := by linarith
  obtain ⟨e, hE, hlow, hhigh⟩ := ratLog2_nonneg_correct x hx1
  have he3 : 3 ≤ e := by
    by_contra hc
    push_neg at hc
    have hpb : (2 : ℚ) ^ (e + 1) ≤ 2 ^ 3 := pow_le_pow_right₀ one_le_two (by omega)
    norm_num at hpb
    linarith
  have hmax : max ((e : ℕ) : ℤ) (-1022) = ((e : ℕ) : ℤ) := by omega
  have hne : x ≠ 0 := ne_of_gt hx0
  have hnn : ¬ x < 0 := not_lt.mpr hx0.le
  simp only [roundDouble, hE, hmax, if_neg hne, if_neg hnn] at hx
  by_cases he52 : e ≤ 52
  · rw [if_pos (show (0 : ℤ) ≤ 52 - (e : ℕ) by omega),
      show ((52 : ℤ) - (e : ℕ)).toNat = 52 - e by omega] at hx
    rcases Nat.lt_or_ge e 52 with hlt | hge
    · rw [if_neg (show ¬ (52 : ℤ) ≤ ((e : ℕ) : ℤ) by omega)] at hx
      set M := roundHalfEven (x.num.natAbs * 2 ^ (52 - e)) x.den with hM
      rw [mkRat_eq_q] at hx
      have hxM : x * 2 ^ (52 - e) = (M : ℚ) := by
        rw [← hx]
        push_cast
        field_simp
      have hx52 : x * 2 ^ 52 = (M : ℚ) * 2 ^ e := by
        rw [show (2 : ℚ) ^ 52 = 2 ^ (52 - e) * 2 ^ e from by rw [← pow_add]; congr 1; omega,
          ← mul_assoc, hxM]
      have hMlo : 2 ^ 52 ≤ M := by
        have hq : ((2 ^ 52 : ℕ) : ℚ) ≤ (M : ℚ) := by
          rw [← hxM]
          push_cast
          calc (2 : ℚ) ^ 52 = 2 ^ e * 2 ^ (52 - e) := by rw [← pow_add]; congr 1; omega
          _ ≤ x * 2 ^ (52 - e) := mul_le_mul_of_nonneg_right hlow (by positivity)
        exact_mod_cast hq
      have hMhi : M < 2 ^ 53 := by
        have hq : (M : ℚ) < ((2 ^ 53 : ℕ) : ℚ) := by
          rw [← hxM]
          push_cast
          calc x * 2 ^ (52 - e) < 2 ^ (e + 1) * 2 ^ (52 - e) :=
            mul_lt_mul_of_pos_right hhigh (by positivity)
          _ = 2 ^ 53 := by rw [← pow_add]; congr 1; omega
        exact_mod_cast hq
      exact ⟨e, M, he3, hMlo, hMhi, hlow, hhigh, hx52⟩
    · have heq : e = 52 := by omega
      subst heq
      rw [if_pos (show (52 : ℤ) ≤ ((52 : ℕ) : ℤ) by omega)] at hx
      set M := roundHalfEven (x.num.natAbs * 2 ^ (52 - 52)) x.den with hM
      rw [show (((52 : ℕ) : ℤ) - 52).toNat = 0 by omega,
        show ((M : ℤ) * 2 ^ 0) = (M : ℤ) from by ring, Rat.mkRat_one] at hx
      have hxM : x = (M : ℚ) := by exact_mod_cast hx.symm
      refine ⟨52, M, by omega, ?_, ?_, hlow, hhigh, ?_⟩
      · have hq : ((2 ^ 52 : ℕ) : ℚ) ≤ (M : ℚ) := by
          rw [← hxM]
          push_cast
          exact hlow
        exact_mod_cast hq
      · have hq : (M : ℚ) < ((2 ^ 53 : ℕ) : ℚ) := by
          rw [← hxM]
          push_cast
          calc x < 2 ^ (52 + 1) := hhigh
          _ = 2 ^ 53 := by norm_num
        exact_mod_cast hq
      · rw [hxM]
  · push_neg at he52
    rw [if_neg (show ¬ (0 : ℤ) ≤ 52 - (e : ℕ) by omega),
      show (((e : ℕ) : ℤ) - 52).toNat = e - 52 by omega,
      if_pos (show (52 : ℤ) ≤ ((e : ℕ) : ℤ) by omega)] at hx
    set M := roundHalfEven x.num.natAbs (x.den * 2 ^ (e - 52)) with hM
    rw [Rat.mkRat_one] at hx
    have hxM : x = (M : ℚ) * 2 ^ (e - 52) := by
      rw [← hx]
      push_cast
      ring
    have hp : (2 : ℚ) ^ (e - 52) * 2 ^ 52 = 2 ^ e := by rw [← pow_add]; congr 1; omega
    have hx52 : x * 2 ^ 52 = (M : ℚ) * 2 ^ e := by
      rw [hxM, mul_assoc, hp]
    have h2m : (0 : ℚ) < 2 ^ (e - 52) := by positivity
    have hMlo : 2 ^ 52 ≤ M := by
      have hq : ((2 ^ 52 : ℕ) : ℚ) ≤ (M : ℚ) := by
        have h1 : (2 : ℚ) ^ 52 * 2 ^ (e - 52) ≤ (M : ℚ) * 2 ^ (e - 52) := by
          rw [show (2 : ℚ) ^ 52 * 2 ^ (e - 52) = 2 ^ (e - 52) * 2 ^ 52 from by ring, hp, ← hxM]
          exact hlow
        push_cast
        exact le_of_mul_le_mul_right h1 h2m
      exact_mod_cast hq
    have hMhi : M < 2 ^ 53 := by
      have hq : (M : ℚ) < ((2 ^ 53 : ℕ) : ℚ) := by
        have h1 : (M : ℚ) * 2 ^ (e - 52) < 2 ^ 53 * 2 ^ (e - 52) := by
          rw [← hxM, show (2 : ℚ) ^ 53 * 2 ^ (e - 52) = 2 ^ (e - 52) * 2 ^ 52 * 2 from by ring,
            hp]
          calc x < 2 ^ (e + 1) := hhigh
          _ = 2 ^ e * 2 := by rw [pow_succ]
        push_cast
        exact lt_of_mul_lt_mul_right h1 h2m.le
      exact_mod_cast hq
    exact ⟨e, M, he3, hMlo, hMhi, hlow, hhigh, hx52⟩

theorem roundtrip_pos (x : ℚ) (hx : roundDouble x = x) (h8 : 8 ≤ x) :
    roundDouble (decimal15 x) = x := by
  obtain ⟨e, M, he3, hM0, hMhi, hlow, hhigh, hx52⟩ := isDouble_structure x hx h8
  rcases Nat.eq_or_lt_of_le hM0 with hMeq | hMgt
  · -- x is exactly 2^e: an integer, so fmt15 prints it exactly
    have hxpow : x = (2 : ℚ) ^ e := by
      rw [← hMeq] at hx52
      push_cast at hx52
      have h52 : (0 : ℚ) < 2 ^ 52 := by positivity
      have := mul_right_cancel₀ (ne_of_gt h52)
        (show x * 2 ^ 52 = 2 ^ e * 2 ^ 52 from by rw [hx52]; ring)
      exact this
    have hden : x.den = 1 := by
      rw [hxpow, show ((2 : ℚ) ^ e) = ((2 ^ e : ℕ) : ℚ) from by push_cast; rfl]
      exact Rat.den_natCast _
    rw [decimal15_den_one x (by linarith) hden, hx]
  · set y := decimal15 x with hy
    have herr := decimal15_nonneg_err x (by linarith)
    have habs : |y - x| ≤ 1 / (2 * 10 ^ 15) :=
      (le_div_iff (by norm_num : (0 : ℚ) < 2 * 10 ^ 15)).mpr herr
    have hA8 : (8 : ℚ) ≤ 2 ^ e := by
      calc (8 : ℚ) = 2 ^ 3 := by norm_num
      _ ≤ 2 ^ e := pow_le_pow_right₀ one_le_two he3
    have h53 : |y - x| * 2 ^ 53 < 8 := by
      calc |y - x| * 2 ^ 53 ≤ (1 / (2 * 10 ^ 15)) * 2 ^ 53 :=
        mul_le_mul_of_nonneg_right habs (by positivity)
      _ < 8 := by norm_num
    have h52 : |y - x| * 2 ^ 52 < 8 := by
      calc |y - x| * 2 ^ 52 ≤ (1 / (2 * 10 ^ 15)) * 2 ^ 52 :=
        mul_le_mul_of_nonneg_right habs (by positivity)
      _ < 8 := by norm_num
    have hylow : (2 : ℚ) ^ e < y := by
      have hm1 : (2 ^ 52 + 1 : ℚ) ≤ (M : ℚ) := by exact_mod_cast hMgt
      have hxa : (x - 2 ^ e) * 2 ^ 52 = ((M : ℚ) - 2 ^ 52) * 2 ^ e := by
        linear_combination hx52
      have hge : (2 : ℚ) ^ e ≤ (x - 2 ^ e) * 2 ^ 52 := by
        rw [hxa]
        calc (2 : ℚ) ^ e = 1 * 2 ^ e := (one_mul _).symm
        _ ≤ ((M : ℚ) - 2 ^ 52) * 2 ^ e :=
          mul_le_mul_of_nonneg_right (by linarith) (by positivity)
      by_contra hc
      push_neg at hc
      have hmono : (x - 2 ^ e) * 2 ^ 52 ≤ (x - y) * 2 ^ 52 :=
        mul_le_mul_of_nonneg_right (by linarith) (by positivity)
      have hxy : x - y ≤ |y - x| := by
        rw [abs_sub_comm]
        exact le_abs_self _
      have hxy52 : (x - y) * 2 ^ 52 ≤ |y - x| * 2 ^ 52 :=
        mul_le_mul_of_nonneg_right hxy (by positivity)
      linarith
    have hyhigh : y < 2 ^ (e + 1) := by
      have hM53 : (M : ℚ) + 1 ≤ 2 ^ 53 := by exact_mod_cast hMhi
      have hxa : (2 ^ (e + 1) - x) * 2 ^ 52 = (2 ^ 53 - (M : ℚ)) * 2 ^ e := by
        linear_combination -hx52
      have hge : (2 : ℚ) ^ e ≤ (2 ^ (e + 1) - x) * 2 ^ 52 := by
        rw [hxa]
        calc (2 : ℚ) ^ e = 1 * 2 ^ e := (one_mul _).symm
        _ ≤ (2 ^ 53 - (M : ℚ)) * 2 ^ e :=
          mul_le_mul_of_nonneg_right (by linarith) (by positivity)
      by_contra hc
      push_neg at hc
      have hmono : (2 ^ (e + 1) - x) * 2 ^ 52 ≤ (y - x) * 2 ^ 52 :=
        mul_le_mul_of_nonneg_right (by linarith) (by positivity)
      have hxy : y - x ≤ |y - x| := le_abs_self _
      have hxy52 : (y - x) * 2 ^ 52 ≤ |y - x| * 2 ^ 52 :=
        mul_le_mul_of_nonneg_right hxy (by positivity)
      linarith
    have hy0 : 0 < y := by
      have hp : (0 : ℚ) < 2 ^ e := by positivity
      linarith
    exact roundDouble_eq_of_near y x e M hy0 hylow.le hyhigh hx52
      (lt_of_lt_of_le h53 hA8)

theorem roundtrip_abs (x : ℚ) (hx : roundDouble x = x) (h8 : 8 ≤ |x|) :
    roundDouble (decimal15 x) = x := by
  rcases le_or_lt 0 x with h | h
  · rw [abs_of_nonneg h] at h8
    exact roundtrip_pos x hx h8
  · rw [abs_of_neg h] at h8
    have hz : roundDouble (-x) = -x := by rw [roundDouble_neg, hx]
    have hres := roundtrip_pos (-x) hz h8
    rw [decimal15_neg, roundDouble_neg] at hres
    exact neg_injective hres

theorem digitChar_isDigit (k : Nat) (h : k < 10) : (Nat.digitChar k).isDigit = true := by
  interval_cases k <;> decide

theorem toDigitsCore_digits : ∀ (fuel n : Nat) (ds : List Char),
    (∀ c ∈ ds, c.isDigit = true) → ∀ c ∈ Nat.toDigitsCore 10 fuel n ds, c.isDigit = true := by
  intro fuel
  induction fuel with
  | zero =>
    intro n ds hds c hc
    simp only [Nat.toDigitsCore] at hc
    exact hds c hc
  | succ f ih =>
    intro n ds hds c hc
    simp only [Nat.toDigitsCore] at hc
    have hdig : (Nat.digitChar (n % 10)).isDigit = true :=
      digitChar_isDigit _ (Nat.mod_lt _ (by norm_num))
    by_cases h0 : n / 10 = 0
    · rw [if_pos h0] at hc
      rcases List.mem_cons.mp hc with rfl | hmem
      · exact hdig
      · exact hds c hmem
    · rw [if_neg h0] at hc
      refine ih (n / 10) _ ?_ c hc
      intro d hd
      rcases List.mem_cons.mp hd with rfl | hmem
      · exact hdig
      · exact hds d hmem

theorem toString_nat_digits (n : Nat) : ∀ c ∈ (toString n).data, c.isDigit = true := by
  intro c hc
  have hdata : (toString n).data = Nat.toDigitsCore 10 (n + 1) n [] := rfl
  rw [hdata] at hc
  exact toDigitsCore_digits (n + 1) n []
    (fun d hd => absurd hd (List.not_mem_nil d)) c hc

theorem natPad15_length (k : Nat) (h : k < 10 ^ 15) : (natPad15 k).length = 15 := by
  have hlen : (toString k).length ≤ 15 := Nat.repr_length k 15 (by norm_num) h
  simp only [natPad15]
  rw [String.length_append]
  have hmk : (String.mk (List.replicate (15 - (toString k).length) '0')).length =
      15 - (toString k).length := by
    show (List.replicate (15 - (toString k).length) '0').length = _
    rw [List.length_replicate]
  rw [hmk]
  omega

theorem natPad15_digits (k : Nat) : ∀ c ∈ (natPad15 k).data, c.isDigit = true := by
  intro c hc
  simp only [natPad15] at hc
  rw [String.data_append] at hc
  rcases List.mem_append.mp hc with h1 | h2
  · have hrep : c ∈ List.replicate (15 - (toString k).length) '0' := h1
    rw [List.eq_of_mem_replicate hrep]
    decide
  · exact toString_nat_digits k c h2

theorem fmt15_shape (x : ℚ) : ∃ ip fp : String, fmt15 x = ip ++ "." ++ fp ∧
    fp.length = 15 ∧ (∀ c ∈ fp.data, c.isDigit = true) ∧ '.' ∉ ip.data := by
  refine ⟨(if x < 0 then "-" else "") ++
      toString (roundHalfEven (x.num.natAbs * 10 ^ 15) x.den / 10 ^ 15),
    natPad15 (roundHalfEven (x.num.natAbs * 10 ^ 15) x.den % 10 ^ 15), rfl,
    natPad15_length _ (Nat.mod_lt _ (by norm_num)), natPad15_digits _, ?_⟩
  intro hmem
  rw [String.data_append] at hmem
  rcases List.mem_append.mp hmem with h1 | h2
  · by_cases hx : x < 0
    · rw [if_pos hx] at h1
      revert h1
      decide
    · rw [if_neg hx] at h1
      revert h1
      decide
  · exact absurd (toString_nat_digits _ _ h2) (by decide)

/-- **C8** (corrected).  The `%.15f,%.15f` position parameter built by
`sprintfPos` always consists of two numerals each with exactly 15 digits
after its decimal point; the exact value `decimal15 x` of the printed
numeral differs from the coordinate `x` by at most `1/(2*10^15)`; and
parsing the numeral back to the nearest double (`roundDouble`) recovers
the coordinate exactly for every double of magnitude at least `8`.  The
unrestricted round-trip claimed by the spec is false: see
`position_roundtrip_counterexample`. -/
theorem position_format_and_roundtrip :
    (∀ ll : LatLng, ∃ ip1 fp1 ip2 fp2 : String,
        sprintfPos ll = ip1 ++ "." ++ fp1 ++ "," ++ (ip2 ++ "." ++ fp2) ∧
        fp1.length = 15 ∧ fp2.length = 15 ∧
        (∀ c ∈ fp1.data, c.isDigit = true) ∧ (∀ c ∈ fp2.data, c.isDigit = true) ∧
        '.' ∉ ip1.data ∧ '.' ∉ ip2.data) ∧
    (∀ x : ℚ, |decimal15 x - x| * (2 * 10 ^ 15) ≤ 1) ∧
    (∀ x : ℚ, isDouble x → 8 ≤ |x| → roundDouble (decimal15 x) = x) := by
  refine ⟨?_, decimal15_err, ?_⟩
  · intro ll
    obtain ⟨ip1, fp1, h1, l1, d1, n1⟩ := fmt15_shape ll.1
    obtain ⟨ip2, fp2, h2, l2, d2, n2⟩ := fmt15_shape ll.2
    refine ⟨ip1, fp1, ip2, fp2, ?_, l1, l2, d1, d2, n1, n2⟩
    simp only [sprintfPos]
    rw [h1, h2]
  · intro x hx h8
    exact roundtrip_abs x hx.1 h8

/-- Counterexample for **C8** as stated in the spec: the double `2^(-60)`
is a nonzero finite float64, yet `%.15f` prints it as
`0.000000000000000`, whose value parses back to `0`, not to the original
double.  The unrestricted "round-trips within float64 precision" claim is
therefore false. -/
theorem position_roundtrip_counterexample :
    isDouble (mkRat 1 (2 ^ 60)) ∧ mkRat 1 (2 ^ 60) ≠ 0 ∧
    fmt15 (mkRat 1 (2 ^ 60)) = "0.000000000000000" ∧
    sprintfPos (mkRat 1 (2 ^ 60), mkRat 1 (2 ^ 60)) =
      "0.000000000000000,0.000000000000000" ∧
    decimal15 (mkRat 1 (2 ^ 60)) = 0 ∧
    roundDouble (decimal15 (mkRat 1 (2 ^ 60))) ≠ mkRat 1 (2 ^ 60) := by
  refine ⟨by decide, by decide, by decide, by decide, by decide, ?_⟩
  decide

/-- Witness for **C8**, instantiating the round-trip part of
`position_format_and_roundtrip` at the double nearest `51.484463` (the
latitude of spec scenario 2). -/
theorem position_format_and_roundtrip_witness :
    isDouble latValue ∧ 8 ≤ |latValue| ∧
    roundDouble (decimal15 latValue) = latValue :=
  ⟨by decide, by decide,
    position_format_and_roundtrip.2.2 latValue (by decide) (by decide)⟩

end W3w
